import Mathlib

/-!
Shallow embedding of `crtshadow.py`, a CLI tool that queries crt.sh for
certificate-transparency records and extracts hostnames.

Python strings are modelled as Lean `String`; the Python `str` methods used by
the source (`strip`, `lower`, `split`, `startswith`, `endswith`, slicing) are
given explicit executable models over `String.data`.  Python `set` is modelled
as `Finset String`.  The per-record progress output of `tqdm` (a side effect on
stderr) is modelled as an explicit log component returned by `extract`.
-/

/-- Drop leading whitespace characters (helper for Python `str.strip`). -/
def dropWs : List Char → List Char
  | [] => []
  | c :: cs => if c.isWhitespace then dropWs cs else c :: cs

/-- Model of Python `h.strip()`: remove whitespace at both ends. -/
def pyStrip (s : String) : String :=
  ⟨(dropWs (dropWs s.data).reverse).reverse⟩

/-- ASCII uppercase test (`'A'` to `'Z'`), as Python `str.isupper` on one char. -/
def upChar (c : Char) : Bool :=
  decide (65 ≤ c.toNat ∧ c.toNat ≤ 90)

/-- Model of Python `str.lower` on one character: map `'A'..'Z'` to
`'a'..'z'`, leave everything else unchanged (the hostname data handled by the
tool is ASCII). -/
def lowChar (c : Char) : Char :=
  if h : 65 ≤ c.toNat ∧ c.toNat ≤ 90 then
    Char.ofNatAux (c.toNat + 32) (Or.inl (by omega))
  else c

/-- Model of Python `h.lower()`. -/
def pyLower (s : String) : String :=
  ⟨s.data.map lowChar⟩

/-- `leadChars p l` holds when `p` is an initial segment of `l`
(helper for Python `str.startswith`). -/
def leadChars : List Char → List Char → Bool
  | [], _ => true
  | _ :: _, [] => false
  | p :: ps, c :: cs => if p = c then leadChars ps cs else false

/-- Model of Python `s.startswith(p)`. -/
def hasLead (p s : String) : Bool :=
  leadChars p.data s.data

/-- Model of Python `s.endswith(suf)`. -/
def hasTail (suf s : String) : Bool :=
  leadChars suf.data.reverse s.data.reverse

/-- Model of Python slicing `s[n:]`. -/
def dropLead (n : Nat) (s : String) : String :=
  ⟨s.data.drop n⟩

/-- Model of Python slicing `s[:-n]` (for `n ≤ len(s)`). -/
def dropTail (n : Nat) (s : String) : String :=
  ⟨s.data.take (s.data.length - n)⟩

/-- Split into maximal whitespace-free words; `acc` holds the current word
reversed (helper for Python `str.split()` with no argument). -/
def wsSplitAux : List Char → List Char → List (List Char)
  | [], acc => if acc.isEmpty then [] else [acc.reverse]
  | c :: cs, acc =>
    if c.isWhitespace then
      if acc.isEmpty then wsSplitAux cs [] else acc.reverse :: wsSplitAux cs []
    else wsSplitAux cs (c :: acc)

/-- Model of Python `s.split()` (split on whitespace runs, no empty parts). -/
def pySplit (s : String) : List String :=
  (wsSplitAux s.data []).map String.mk

/-- A certificate record from the crt.sh JSON array.  The source reads exactly
two fields, `cert.get("common_name", "")` and `cert.get("name_value", "")`;
an absent field is the empty string. -/
structure CertRecord where
  common_name : String := ""
  name_value : String := ""
deriving DecidableEq

/-- The body of `_clean`'s loop for one raw host string:
`h = h.strip()`; if `h.startswith("*.")` then `h = h[2:]`;
if `h` is non-empty, contribute `h.lower()`, else nothing. -/
def cleanOne (h0 : String) : Option String :=
  let h1 := pyStrip h0
  let h2 := if hasLead "*." h1 then dropLead 2 h1 else h1
  if h2 = "" then none else some (pyLower h2)

/-- Model of `_clean(hosts)`: the set of cleaned host strings. -/
def cleanSet (hosts : List String) : Finset String :=
  (hosts.filterMap cleanOne).toFinset

/-- The raw names one record contributes inside `extract`'s loop:
`common_name` when truthy (non-empty), plus every part of
`name_value.split()` (the parts are non-empty by construction; the source's
`if part:` test is mirrored by the filter). -/
def certNames (cert : CertRecord) : List String :=
  (if cert.common_name ≠ "" then [cert.common_name] else []) ++
    (pySplit cert.name_value).filter (fun part => part ≠ "")

/-- All raw names collected by `extract`'s loop over `entries`. -/
def rawNames (entries : List CertRecord) : List String :=
  entries.flatMap certNames

/-- Model of `extract(entries, verbose)`.  The first component is the returned
set `_clean(names)`; the second models the `tqdm` progress side channel on
stderr (one tick per record when verbose, nothing otherwise). -/
def extract (entries : List CertRecord) (verbose : Bool) :
    Finset String × List String :=
  (cleanSet (rawNames entries),
   if verbose then entries.map (fun _ => "certificates") else [])

/-- The `--same` filter in `main`:
`{n for n in names if n == domain or n.endswith("." + domain)}`. -/
def sameFilter (names : Finset String) (domain : String) : Finset String :=
  names.filter (fun n => n = domain ∨ hasTail ("." ++ domain) n = true)

/-- The body of the `--trim` loop for one kept name:
if `n.endswith("." + domain)` then `n = n[:-len("." + domain)]`. -/
def trimOne (domain n : String) : String :=
  if hasTail ("." ++ domain) n then dropTail ("." ++ domain).length n else n

/-- The `--trim` transform in `main`: skip `n == domain`, strip the suffix
from names ending in `"." + domain`, keep the rest; collect into a set. -/
def trimSet (names : Finset String) (domain : String) : Finset String :=
  (names.filter (fun n => n ≠ domain)).image (trimOne domain)

/-- `out = sorted(names)`: ascending lexicographic order. -/
def sortNames (names : Finset String) : List String :=
  names.sort (· ≤ ·)

/-- The pure part of `main` after the fetch: extract, optionally filter to the
same domain, optionally trim, then sort.  (`extract`'s returned set does not
depend on the verbose flag, so it is fixed to `false` here.) -/
def pipeline (entries : List CertRecord) (sameF trimF : Bool)
    (domain : String) : List String :=
  let names := (extract entries false).1
  let names := if sameF then sameFilter names domain else names
  let names := if trimF then trimSet names domain else names
  sortNames names

/-- Model of Python `"\n".join(out)`. -/
def joinNl : List String → String
  | [] => ""
  | [x] => x
  | x :: xs => x ++ "\n" ++ joinNl xs

/-- Bytes `print(s)` sends to stdout: the string plus one newline. -/
def printLine (s : String) : String :=
  s ++ "\n"

/-- Bytes written in file mode: `f.write("\n".join(out) + "\n")`. -/
def fileContent (out : List String) : String :=
  joinNl out ++ "\n"

/-- Bytes written in stdout mode: `print("\n".join(out))`. -/
def stdoutContent (out : List String) : String :=
  printLine (joinNl out)

/-- The sequence of request sequences `fetch` issues, by scheme flag
(`true` = HTTPS).  `status b` is the final HTTP status of a request sequence
over scheme `b` (after the session's internal urllib3 retries).  Mirrors the
recursion in `fetch`: on HTTPS with final status 503 it re-enters with
`https=False`; over HTTP it never recurses. -/
def fetchSeq (status : Bool → Nat) : Bool → List Bool
  | false => [false]
  | true =>
    if status true = 503 then true :: fetchSeq status false else [true]
termination_by b => if b then 1 else 0
decreasing_by simp

/-! ### Helper lemmas about the character-level model -/

theorem toNat_ofNatAux (n : Nat) (h : n.isValidChar) :
    (Char.ofNatAux n h).toNat = n := rfl

theorem char_toNat_inj {c d : Char} (h : c.toNat = d.toNat) : c = d := by
  have h2 := congrArg Char.ofNat h
  rwa [Char.ofNat_toNat, Char.ofNat_toNat] at h2

/-- Lowercasing never yields an ASCII uppercase character. -/
theorem upChar_lowChar (c : Char) : upChar (lowChar c) = false := by
  unfold lowChar
  split
  · rename_i h
    simp only [upChar, decide_eq_false_iff_not]
    show ¬(65 ≤ c.toNat + 32 ∧ c.toNat + 32 ≤ 90)
    omega
  · rename_i h
    simp only [upChar, decide_eq_false_iff_not]
    exact h

/-- Lowercasing is transparent for comparisons against a character that is
neither an ASCII uppercase nor an ASCII lowercase letter (such as `'*'`
or `'.'`). -/
theorem lowChar_eq_nonletter {d : Char} (hd1 : ¬(65 ≤ d.toNat ∧ d.toNat ≤ 90))
    (hd2 : ¬(97 ≤ d.toNat ∧ d.toNat ≤ 122)) (c : Char) :
    lowChar c = d ↔ c = d := by
  unfold lowChar
  split
  · rename_i h
    constructor
    · intro he
      have h2 := congrArg Char.toNat he
      rw [toNat_ofNatAux] at h2
      exact absurd ⟨by omega, by omega⟩ hd2
    · intro he
      subst he
      exact absurd h hd1
  · exact Iff.rfl

theorem star_lowChar (c : Char) : ('*' = lowChar c) ↔ ('*' = c) := by
  rw [@eq_comm _ '*' (lowChar c), @eq_comm _ '*' c]
  exact lowChar_eq_nonletter (by decide) (by decide) c

theorem dot_lowChar (c : Char) : ('.' = lowChar c) ↔ ('.' = c) := by
  rw [@eq_comm _ '.' (lowChar c), @eq_comm _ '.' c]
  exact lowChar_eq_nonletter (by decide) (by decide) c

/-- Lowercasing does not create or destroy a leading `"*."`. -/
theorem lead_lower (s : String) :
    hasLead "*." (pyLower s) = hasLead "*." s := by
  show leadChars ['*', '.'] (s.data.map lowChar) = leadChars ['*', '.'] s.data
  cases s.data with
  | nil => rfl
  | cons c1 l1 =>
    cases l1 with
    | nil => simp [leadChars]
    | cons c2 l2 => simp [leadChars, star_lowChar, dot_lowChar]

/-- After removing one leading `"*."`, a leading `"*."` remains exactly when
the original string began with `"*.*."`. -/
theorem lead_drop (t : String) (h : hasLead "*." t = true) :
    hasLead "*." (dropLead 2 t) = hasLead "*.*." t := by
  obtain ⟨l⟩ := t
  cases l with
  | nil => simp [hasLead, leadChars] at h
  | cons c1 l1 =>
    cases l1 with
    | nil => simp [hasLead, leadChars, ite_self] at h
    | cons c2 l2 =>
      simp only [hasLead, leadChars] at h
      split_ifs at h with h1 h2
      · subst h1
        subst h2
        show leadChars ['*', '.'] l2 = leadChars ['*', '.', '*', '.'] ('*' :: '.' :: l2)
        simp [leadChars]

/-- Membership in the cleaned set comes from some raw host string. -/
theorem mem_cleanSet {x : String} {hosts : List String} :
    x ∈ cleanSet hosts ↔ ∃ n, n ∈ hosts ∧ cleanOne n = some x := by
  simp [cleanSet, List.mem_toFinset, List.mem_filterMap]

/-- Case analysis of a successful `cleanOne`: the result is the lowercasing of
the stripped input, with one leading `"*."` removed when present. -/
theorem cleanOne_eq_some {n x : String} (h : cleanOne n = some x) :
    ∃ u : String, u ≠ "" ∧ x = pyLower u ∧
      ((hasLead "*." (pyStrip n) = true ∧ u = dropLead 2 (pyStrip n)) ∨
       (hasLead "*." (pyStrip n) = false ∧ u = pyStrip n)) := by
  simp only [cleanOne] at h
  by_cases h1 : hasLead "*." (pyStrip n) = true
  · rw [if_pos h1] at h
    by_cases h2 : dropLead 2 (pyStrip n) = ""
    · rw [if_pos h2] at h
      exact absurd h (by simp)
    · rw [if_neg h2] at h
      exact ⟨dropLead 2 (pyStrip n), h2, (Option.some.inj h).symm,
        Or.inl ⟨h1, rfl⟩⟩
  · rw [if_neg h1] at h
    by_cases h2 : pyStrip n = ""
    · rw [if_pos h2] at h
      exact absurd h (by simp)
    · rw [if_neg h2] at h
      exact ⟨pyStrip n, h2, (Option.some.inj h).symm,
        Or.inr ⟨by simpa using h1, rfl⟩⟩

/-- With no records, the whole pipeline produces the empty list. -/
theorem pipeline_nil (sameF trimF : Bool) (domain : String) :
    pipeline [] sameF trimF domain = [] := by
  cases sameF <;> cases trimF <;>
    simp [pipeline, extract, cleanSet, rawNames, sameFilter, trimSet,
      sortNames, Finset.sort_empty]

/-! ### Claim theorems -/

/-- C1: on the two records `{common_name: "*.example.com",
name_value: "www.example.com example.com"}` and `{common_name: "",
name_value: "api.example.com"}`, extraction followed by sorting (no `--same`,
no `--trim`) yields exactly
`["api.example.com", "example.com", "www.example.com"]`. -/
theorem extract_end_to_end :
    pipeline
      [{ common_name := "*.example.com",
         name_value := "www.example.com example.com" },
       { common_name := "", name_value := "api.example.com" }]
      false false "example.com" =
      ["api.example.com", "example.com", "www.example.com"] := by
  have hset : (extract
      [{ common_name := "*.example.com",
         name_value := "www.example.com example.com" },
       { common_name := "", name_value := "api.example.com" }] false).1 =
      (["api.example.com", "example.com", "www.example.com"] :
        List String).toFinset := by decide
  have hnd : (["api.example.com", "example.com", "www.example.com"] :
      List String).Nodup := by decide
  have hs : (["api.example.com", "example.com", "www.example.com"] :
      List String).Sorted (· ≤ ·) := by
    simp [List.sorted_cons, String.le_iff_toList_le]
    refine ⟨⟨?_, ?_⟩, ?_⟩ <;> decide
  show sortNames _ = _
  rw [hset]
  exact (List.toFinset_sort (· ≤ ·) hnd).mpr hs

/-- C2: trimming drops a name equal to the domain, rewrites a name ending in
`"." + domain` to the part before that suffix, and passes every other name
through unchanged; for domain `"example.com"` and names
`{"example.com", "api.example.com", "other.org"}` the result is
`{"api", "other.org"}`. -/
theorem trim_behavior (names : Finset String) (domain : String) :
    (∀ x, x ∈ trimSet names domain ↔
      ∃ n ∈ names, n ≠ domain ∧
        ((hasTail ("." ++ domain) n = true ∧
            x = dropTail ("." ++ domain).length n) ∨
         (hasTail ("." ++ domain) n = false ∧ x = n))) ∧
    trimSet {"example.com", "api.example.com", "other.org"} "example.com" =
      {"api", "other.org"} := by
  constructor
  · intro x
    simp only [trimSet, Finset.mem_image, Finset.mem_filter]
    constructor
    · rintro ⟨n, ⟨hn, hnd⟩, hfx⟩
      refine ⟨n, hn, hnd, ?_⟩
      by_cases ht : hasTail ("." ++ domain) n = true
      · exact Or.inl ⟨ht, by rw [← hfx]; simp [trimOne, ht]⟩
      · refine Or.inr ⟨by simpa using ht, ?_⟩
        rw [← hfx]
        simp [trimOne, ht]
    · rintro ⟨n, hn, hnd, hcase⟩
      refine ⟨n, ⟨hn, hnd⟩, ?_⟩
      rcases hcase with ⟨ht, rfl⟩ | ⟨ht, rfl⟩
      · simp [trimOne, ht]
      · simp [trimOne, ht]
  · decide

/-- C3 counterexample: the record `{common_name: "", name_value:
"*.*.example.com"}` makes `extract` return an element that still starts with
`"*."`, because the code removes only one wildcard prefix. -/
theorem extract_invariant_cex :
    "*.example.com" ∈
      (extract [{ common_name := "", name_value := "*.*.example.com" }]
        false).1 ∧
    hasLead "*." "*.example.com" = true := by
  constructor
  · decide
  · decide

/-- C3 (amended): every element of the extracted set is free of ASCII
uppercase characters and the set has no duplicates; and provided no collected
raw name begins (after stripping) with a doubled wildcard `"*.*."`, no element
starts with `"*."`. -/
theorem extract_invariant (entries : List CertRecord) (v : Bool)
    (h : ∀ n ∈ rawNames entries, hasLead "*.*." (pyStrip n) = false) :
    (∀ x ∈ (extract entries v).1,
      hasLead "*." x = false ∧ ∀ c ∈ x.data, upChar c = false) ∧
    (extract entries v).1.val.Nodup := by
  refine ⟨?_, Finset.nodup _⟩
  intro x hx
  have hx' : x ∈ cleanSet (rawNames entries) := hx
  rw [mem_cleanSet] at hx'
  obtain ⟨n, hn, hcn⟩ := hx'
  obtain ⟨u, hu0, hxu, hcase⟩ := cleanOne_eq_some hcn
  subst hxu
  constructor
  · rw [lead_lower]
    rcases hcase with ⟨hl, rfl⟩ | ⟨hl, rfl⟩
    · rw [lead_drop _ hl]
      exact h n hn
    · exact hl
  · intro c hc
    obtain ⟨c0, _, rfl⟩ := List.mem_map.mp hc
    exact upChar_lowChar c0

/-- C3 witness: the amended invariant applied to a concrete record list. -/
theorem extract_invariant_witness :
    (∀ x ∈ (extract [{ common_name := "*.Foo.COM", name_value := "bar.com" }]
        false).1,
      hasLead "*." x = false ∧ ∀ c ∈ x.data, upChar c = false) ∧
    (extract [{ common_name := "*.Foo.COM", name_value := "bar.com" }]
        false).1.val.Nodup :=
  extract_invariant _ false (by decide)

/-- C4 counterexample: with zero records the program does not write zero
lines — the written content is a single newline character (one empty line),
in both file and stdout mode. -/
theorem empty_result_cex :
    fileContent (pipeline [] false false "example.com") ≠ "" ∧
    (fileContent (pipeline [] false false "example.com")).data.count '\n'
      = 1 ∧
    (stdoutContent (pipeline [] false false "example.com")).data.count '\n'
      = 1 := by
  rw [pipeline_nil]
  exact ⟨by decide, by decide, by decide⟩

/-- C4 (amended): with zero records the final name list is empty and the
output content — in file mode and in stdout mode alike — is exactly one
newline character (`"\n".join` of the empty list plus the trailing newline),
for every combination of flags. -/
theorem empty_result (sameF trimF : Bool) (domain : String) :
    pipeline [] sameF trimF domain = [] ∧
    fileContent (pipeline [] sameF trimF domain) = "\n" ∧
    stdoutContent (pipeline [] sameF trimF domain) = "\n" := by
  rw [pipeline_nil]
  exact ⟨rfl, rfl, rfl⟩

/-- C5: the same-domain filter keeps a name iff it equals the domain or ends
with `"." + domain`; for domain `"example.com"` and names `{"example.com",
"api.example.com", "evil.com", "notexample.com"}` it keeps exactly
`{"example.com", "api.example.com"}`. -/
theorem same_filter_spec (names : Finset String) (domain : String) :
    (∀ n, n ∈ sameFilter names domain ↔
      n ∈ names ∧ (n = domain ∨ hasTail ("." ++ domain) n = true)) ∧
    sameFilter
        {"example.com", "api.example.com", "evil.com", "notexample.com"}
        "example.com" =
      {"example.com", "api.example.com"} := by
  constructor
  · intro n
    simp [sameFilter, Finset.mem_filter]
  · decide

/-- C6 counterexample: for names `{"api", "api.example.com"}` and domain
`"example.com"`, the domain is not a member yet trimming changes the
cardinality (two distinct names collapse to `"api"`). -/
theorem trim_card_cex :
    "example.com" ∉ ({"api", "api.example.com"} : Finset String) ∧
    (trimSet {"api", "api.example.com"} "example.com").card ≠
      ({"api", "api.example.com"} : Finset String).card := by
  exact ⟨by decide, by decide⟩

/-- C6 (amended): trimming never increases the cardinality beyond the input
cardinality minus the exact-match drop, and reaches that bound exactly when no
two distinct remaining names trim to the same string (the code inserts trimmed
names into a set, so collisions also shrink it). -/
theorem trim_card (names : Finset String) (domain : String) :
    (trimSet names domain).card ≤
      names.card - (if domain ∈ names then 1 else 0) ∧
    ((∀ a ∈ names, a ≠ domain → ∀ b ∈ names, b ≠ domain →
        trimOne domain a = trimOne domain b → a = b) →
      (trimSet names domain).card =
        names.card - (if domain ∈ names then 1 else 0)) := by
  have h1 : trimSet names domain =
      (names.erase domain).image (trimOne domain) := by
    rw [trimSet, Finset.filter_ne']
  have hcard : (names.erase domain).card =
      names.card - (if domain ∈ names then 1 else 0) := by
    by_cases hm : domain ∈ names
    · simp [Finset.card_erase_of_mem hm, hm]
    · simp [Finset.erase_eq_of_not_mem hm, hm]
  constructor
  · rw [h1, ← hcard]
    exact Finset.card_image_le
  · intro hinj
    rw [h1, ← hcard]
    apply Finset.card_image_of_injOn
    intro a ha b hb hab
    rw [Finset.mem_coe, Finset.mem_erase] at ha hb
    exact hinj a ha.2 ha.1 b hb.2 hb.1 hab

/-- C6 witness: the amended cardinality bound at a concrete set where the
domain is a member and trimming is injective on the rest. -/
theorem trim_card_witness :
    (trimSet {"api.example.com", "other.org", "example.com"}
        "example.com").card ≤
      ({"api.example.com", "other.org", "example.com"} :
          Finset String).card -
        (if "example.com" ∈ ({"api.example.com", "other.org", "example.com"} :
            Finset String) then 1 else 0) ∧
    (trimSet {"api.example.com", "other.org", "example.com"}
        "example.com").card =
      ({"api.example.com", "other.org", "example.com"} :
          Finset String).card -
        (if "example.com" ∈ ({"api.example.com", "other.org", "example.com"} :
            Finset String) then 1 else 0) :=
  ⟨(trim_card _ _).1, (trim_card _ _).2 (by decide)⟩

/-- C7: normalization is idempotent on already-normalized names — non-empty,
no surrounding whitespace, already lowercase, no wildcard prefix — both at the
level of one name and of `_clean` on the singleton list. -/
theorem clean_idempotent (n : String) (h1 : n ≠ "") (h2 : pyStrip n = n)
    (h3 : pyLower n = n) (h4 : hasLead "*." n = false) :
    cleanOne n = some n ∧ cleanSet [n] = {n} := by
  have hc : cleanOne n = some n := by
    simp only [cleanOne, h2, h4, Bool.false_eq_true, if_false]
    rw [if_neg h1, h3]
  refine ⟨hc, ?_⟩
  simp [cleanSet, hc]

/-- C7 witness: idempotence at the concrete normalized name
`"foo.example.com"`. -/
theorem clean_idempotent_witness :
    cleanOne "foo.example.com" = some "foo.example.com" ∧
    cleanSet ["foo.example.com"] = {"foo.example.com"} :=
  clean_idempotent "foo.example.com" (by decide) (by decide) (by decide)
    (by decide)

/-- C8: the HTTPS→HTTP fallback happens at most once and `fetch` terminates:
with the HTTPS flag, a final 503 triggers exactly one further request
sequence over HTTP; otherwise no fallback occurs; with the HTTP flag no
fallback ever occurs; at most two request sequences are ever issued, and at
most one of them is over plain HTTP. -/
theorem fetch_fallback (status : Bool → Nat) :
    (status true = 503 → fetchSeq status true = [true, false]) ∧
    (status true ≠ 503 → fetchSeq status true = [true]) ∧
    fetchSeq status false = [false] ∧
    (∀ b, (fetchSeq status b).length ≤ 2) ∧
    (∀ b, (fetchSeq status b).count false ≤ 1) := by
  have hf : fetchSeq status false = [false] := by
    simp [fetchSeq]
  have ht : fetchSeq status true =
      if status true = 503 then [true, false] else [true] := by
    by_cases h : status true = 503 <;> simp [fetchSeq, h, hf]
  refine ⟨fun h => by simp [ht, h], fun h => by simp [ht, h], hf, ?_, ?_⟩
  · intro b
    cases b
    · rw [hf]
      decide
    · rw [ht]
      split <;> decide
  · intro b
    cases b
    · rw [hf]
      decide
    · rw [ht]
      split <;> decide

/-- C8 witness: with a transport answering 503 everywhere, the HTTPS call
issues exactly the sequence HTTPS then HTTP, and the HTTP call only HTTP. -/
theorem fetch_fallback_witness :
    fetchSeq (fun _ => 503) true = [true, false] ∧
    fetchSeq (fun _ => 503) false = [false] :=
  ⟨(fetch_fallback (fun _ => 503)).1 rfl,
   (fetch_fallback (fun _ => 503)).2.2.1⟩

/-- C9: the verbose flag changes only the progress side channel, never the
extracted set: both calls return the same first component. -/
theorem extract_verbose_independent (entries : List CertRecord) :
    (extract entries true).1 = (extract entries false).1 := rfl

/-- C10: for every final sorted name list, file mode and stdout mode write
byte-identical content — `"\n".join(out) + "\n"` in the file equals what
`print("\n".join(out))` sends to stdout. -/
theorem output_mode_equiv (out : List String) :
    fileContent out = stdoutContent out := rfl
